import Mathlib

/-
Shallow embedding of the KZG polynomial-commitment repository
(src/polynomial.rs and src/kzg_commit.rs).

The scalar field Fr of BLS12-381 is modelled as ZMod r where r is the
group order.  The elliptic-curve groups G1 and G2 and the pairing check
come from the external oblast library; they are modelled by an abstract
bundle of operations (structure Curve below), since the repository only
uses a generator, addition, negation, scalar multiplication, a default
(identity) element, and an opaque pairing-check primitive.

Every definition mirrors its Rust source line by line:
  Polynomial, Polynomial.evalaute  <- src/polynomial.rs
  PP, KZG, Commitment, Opening, KZGErrors,
  setup_internal, commit, open_at, compute_quotient, verify
                                   <- src/kzg_commit.rs
Rust panics (out-of-bounds indexing) are modelled with Option: none is a
panic.  Machine-integer conversions are explicit: the loop in
setup_internal converts the usize index i to u32 (i as u32), which is
modelled as i % 2 ^ 32.
-/

namespace Impl

/-- Order of the BLS12-381 G1/G2 groups (the scalar field modulus),
the value returned by curve_order(). -/
def r : ℕ := 52435875175126190479447740508185965837690552500527637822603658699938581184513

/-- The scalar field, oblast's Fr. -/
abbrev Fr := ZMod r

instance : NeZero r := ⟨by decide⟩

instance : Fact (1 < r) := ⟨by decide⟩

/-- Field division of oblast's Fr, modelled as multiplication by the
modular inverse (ZMod's inverse; for the prime modulus r this is the
field inverse, and division by zero yields zero). -/
instance : Div Fr := ⟨fun a b => a * b⁻¹⟩

/-- BigUint::from_bytes_be: big-endian bytes to an unsigned integer. -/
def bytesToNatBE (bs : List ℕ) : ℕ := bs.foldl (fun acc b => acc * 256 + b) 0

/-- Polynomial (src/polynomial.rs): a dense list of scalar coefficients,
index i holding the coefficient of X^i. -/
structure Polynomial where
  coefficients : List Fr

/-- The loop body of Polynomial::evalaute: for i in 1..len,
sum += coefficients[i] * variable; variable *= variable.
Note the squaring of the running power term, exactly as in the source. -/
def evalLoop : Fr → Fr → List Fr → Fr
  | sum, _, [] => sum
  | sum, v, c :: cs => evalLoop (sum + c * v) (v * v) cs

/-- Polynomial::evalaute (src/polynomial.rs lines 36-46).  The Rust code
starts from self.coefficients[0], which panics on an empty coefficient
vector; the panic is modelled as none. -/
def Polynomial.evalaute (p : Polynomial) (x : Fr) : Option Fr :=
  match p.coefficients with
  | [] => none
  | c0 :: rest => some (evalLoop c0 x rest)

/-- Mathematical evaluation of a coefficient list at a point
(Horner form), used to state what evalaute should compute. -/
def mathEval (c : List Fr) (z : Fr) : Fr := c.foldr (fun a acc => a + z * acc) 0

/-- Abstract interface of the oblast group library: the G1 and G2 point
types with the operations the repository uses, plus the pairing-check
primitive verify_pairings. -/
structure Curve where
  G1 : Type
  G2 : Type
  g1zero : G1
  g1add : G1 → G1 → G1
  g1neg : G1 → G1
  g1smul : Fr → G1 → G1
  g1gen : G1
  g2add : G2 → G2 → G2
  g2neg : G2 → G2
  g2smul : Fr → G2 → G2
  g2gen : G2
  pairingCheck : G1 → G2 → G1 → G2 → Bool

/-- PP (src/kzg_commit.rs): the public parameter. -/
structure PP (C : Curve) where
  points_in_g1 : List C.G1
  point_in_g2 : C.G2

/-- KZG (src/kzg_commit.rs). -/
structure KZG (C : Curve) where
  public_parameter : PP C

/-- Commitment (src/kzg_commit.rs).  The Rust struct borrows the
polynomial and the public parameter; the model stores them by value. -/
structure Commitment (C : Curve) where
  element : C.G1
  polynomial : Polynomial
  public_parameter : PP C

/-- Opening (src/kzg_commit.rs). -/
structure Opening (C : Curve) where
  value : Fr
  proof : C.G1

/-- KZGErrors (src/kzg_commit.rs lines 70-73): the only error variant of
the repository. -/
inductive KZGErrors where
  | SecretMustBeLessThanTheOrderOfTheGroup
deriving DecidableEq

/-- KZG::setup_internal (src/kzg_commit.rs lines 102-144).  tau is the
32-byte big-endian secret.  The source checks bytes_tau > modulus (a
strict greater-than, so tau equal to the order passes).  In the loop,
BigUint::from_slice(&[i as u32]) truncates the usize index to 32 bits,
modelled as i % 2 ^ 32.  Scalar::from_fr_bytes is modelled as reduction
into Fr. -/
def setup_internal (C : Curve) (tau : List ℕ) (degree : ℕ) : Except KZGErrors (KZG C) :=
  let modulus := r
  let bytes_tau := bytesToNatBE tau
  if bytes_tau > modulus then
    Except.error KZGErrors.SecretMustBeLessThanTheOrderOfTheGroup
  else
    let g1 := C.g1gen
    let points_in_g1 := (List.range (degree + 1)).map
      (fun i => C.g1smul ((bytes_tau ^ (i % 2 ^ 32) % modulus : ℕ) : Fr) g1)
    let result_in_g2 := C.g2smul ((bytes_tau : ℕ) : Fr) C.g2gen
    Except.ok { public_parameter := { points_in_g1 := points_in_g1, point_in_g2 := result_in_g2 } }

/-- KZG::new (src/kzg_commit.rs lines 78-80): delegates to setup_internal. -/
def KZG.new (C : Curve) (tau : List ℕ) (degree : ℕ) : Except KZGErrors (KZG C) :=
  setup_internal C tau degree

/-- The G1 element computed by KZG::commit: fold over
coefficients.iter().zip(basis.iter()), starting from P1::default(). -/
def commitElement (C : Curve) (public_parameter : PP C) (poly : Polynomial) : C.G1 :=
  (poly.coefficients.zip public_parameter.points_in_g1).foldl
    (fun result ce => C.g1add result (C.g1smul ce.1 ce.2)) C.g1zero

/-- KZG::commit (src/kzg_commit.rs lines 147-165). -/
def commit (C : Curve) (public_parameter : PP C) (poly : Polynomial) :
    Except KZGErrors (Commitment C) :=
  Except.ok { element := commitElement C public_parameter poly,
              polynomial := poly, public_parameter := public_parameter }

/-- The inner for-loop of compute_quotient:
for i in indices { dividend[difference + i] -= divisor[i] * term_quotient }.
The source iterates i over (0..=divisor_pos).rev(); the index list is
passed explicitly.  Out-of-range reads default to 0 (all reads performed
by the source are in range). -/
def subtractScaled (divisorCoeffs : List Fr) (termQuotient : Fr) (difference : ℕ) :
    List ℕ → List Fr → List Fr
  | [], dividend => dividend
  | i :: is, dividend =>
      subtractScaled divisorCoeffs termQuotient difference is
        (dividend.set (difference + i)
          (dividend.getD (difference + i) 0 - divisorCoeffs.getD i 0 * termQuotient))

/-- The while-loop of compute_quotient, indexed by the current value of
difference (the loop runs while difference >= 0, and dividend_pos is
always difference + divisor_pos).  Returns the mutated dividend and the
accumulated quotient coefficients (highest degree first). -/
def quotLoop (divisorCoeffs : List Fr) (divisor_pos : ℕ) :
    ℕ → List Fr → List Fr → List Fr × List Fr
  | 0, dividend, acc =>
      let tq := dividend.getD (0 + divisor_pos) 0 / divisorCoeffs.getD divisor_pos 0
      (subtractScaled divisorCoeffs tq 0 (List.range (divisor_pos + 1)).reverse dividend,
       acc ++ [tq])
  | diff + 1, dividend, acc =>
      let tq := dividend.getD (diff + 1 + divisor_pos) 0 / divisorCoeffs.getD divisor_pos 0
      quotLoop divisorCoeffs divisor_pos diff
        (subtractScaled divisorCoeffs tq (diff + 1) (List.range (divisor_pos + 1)).reverse dividend)
        (acc ++ [tq])

/-- compute_quotient (src/kzg_commit.rs lines 193-222).  The degree
difference is a signed quantity (isize in the source); a negative initial
difference skips the loop and yields the empty quotient. -/
def compute_quotient (dividend divisor : Polynomial) : Polynomial :=
  let dividend_pos := dividend.coefficients.length - 1
  let divisor_pos := divisor.coefficients.length - 1
  let difference : ℤ := (dividend_pos : ℤ) - (divisor_pos : ℤ)
  if difference < 0 then { coefficients := [] }
  else
    { coefficients :=
        (quotLoop divisor.coefficients divisor_pos difference.toNat
          dividend.coefficients []).2.reverse }

/-- Commitment::open_at (src/kzg_commit.rs lines 171-185).  The evaluation
may panic (empty polynomial), modelled by the outer Option; the inner
Except mirrors the ? on KZG::commit. -/
def open_at (C : Curve) (cmt : Commitment C) (point : Fr) :
    Option (Except KZGErrors (Opening C)) :=
  match cmt.polynomial.evalaute point with
  | none => none
  | some result =>
    let divisor : Polynomial := { coefficients := [-point, (1 : Fr)] }
    let quotient_polynomial := compute_quotient cmt.polynomial divisor
    match commit C cmt.public_parameter quotient_polynomial with
    | Except.error e => some (Except.error e)
    | Except.ok c => some (Except.ok { value := result, proof := c.element })

/-- Opening::verify (src/kzg_commit.rs lines 226-236). -/
def verify (C : Curve) (o : Opening C) (input : Fr) (cmt : Commitment C) : Bool :=
  let y_p1 := C.g1smul o.value C.g1gen
  let commitment_minus_y := C.g1add cmt.element (C.g1neg y_p1)
  let z_p2 := C.g2smul input C.g2gen
  let s_minus_z := C.g2add cmt.public_parameter.point_in_g2 (C.g2neg z_p2)
  C.pairingCheck commitment_minus_y C.g2gen o.proof s_minus_z

/-- A concrete instance of the group interface used to evaluate the
model on explicit inputs: both groups are the scalar field itself in
exponent form (generator 1, scalar multiplication is field
multiplication, and the pairing check compares products of exponents). -/
@[reducible] def FrCurve : Curve where
  G1 := Fr
  G2 := Fr
  g1zero := 0
  g1add := fun a b => a + b
  g1neg := fun a => -a
  g1smul := fun a g => a * g
  g1gen := 1
  g2add := fun a b => a + b
  g2neg := fun a => -a
  g2smul := fun a g => a * g
  g2gen := 1
  pairingCheck := fun a1 a2 b1 b2 => decide (a1 * a2 = b1 * b2)

/-- The 32 big-endian bytes of the group order r. -/
def rBytes : List ℕ :=
  [0x73, 0xed, 0xa7, 0x53, 0x29, 0x9d, 0x7d, 0x48,
   0x33, 0x39, 0xd8, 0x08, 0x09, 0xa1, 0xd8, 0x05,
   0x53, 0xbd, 0xa4, 0x02, 0xff, 0xfe, 0x5b, 0xfe,
   0xff, 0xff, 0xff, 0xff, 0x00, 0x00, 0x00, 0x01]

/-- A 32-byte secret whose big-endian value is 2, used as concrete input. -/
def tauTwo : List ℕ := List.replicate 31 0 ++ [2]

/-- Iterated squaring modulo m: computes a ^ (2 ^ k) % m feasibly. -/
def sqmodIter (m : ℕ) : ℕ → ℕ → ℕ
  | 0, a => a
  | k + 1, a => sqmodIter m k (a * a % m)

/-- Reference synthetic division: the quotient of a coefficient list
(ascending powers) by the monic linear divisor (X - z).  The quotient of
c0 + X * g(X) is g(z) + X * (quotient of g), and constants have the empty
quotient. -/
def synthQuotient : List Fr → Fr → List Fr
  | [], _ => []
  | [_], _ => []
  | _ :: c2 :: rest, z => mathEval (c2 :: rest) z :: synthQuotient (c2 :: rest) z

/-- Coefficient-wise sum of two coefficient lists (shorter list padded
with zeros), used to state the division round-trip claim. -/
def addPoly : List Fr → List Fr → List Fr
  | [], ys => ys
  | x :: xs, [] => x :: xs
  | x :: xs, y :: ys => (x + y) :: addPoly xs ys

/-- Product of two coefficient lists (ascending powers), used to state
the division round-trip claim. -/
def polyMul : List Fr → List Fr → List Fr
  | [], _ => []
  | a :: tl, b => addPoly (b.map (fun x => a * x)) ((0 : Fr) :: polyMul tl b)

-- ===================================================================
-- Theorems
-- ===================================================================

theorem sqmodIter_spec (m : ℕ) : ∀ (k a : ℕ), sqmodIter m k (a % m) = a ^ 2 ^ k % m := by
  intro k
  induction k with
  | zero => intro a; simp [sqmodIter]
  | succ k ih =>
    intro a
    have h1 : (a % m) * (a % m) % m = a * a % m := (Nat.mul_mod a a m).symm
    calc sqmodIter m (k + 1) (a % m)
        = sqmodIter m k ((a % m) * (a % m) % m) := rfl
      _ = sqmodIter m k (a * a % m) := by rw [h1]
      _ = (a * a) ^ 2 ^ k % m := ih (a * a)
      _ = a ^ 2 ^ (k + 1) % m := by
          rw [← pow_two, ← pow_mul, ← pow_succ']

/-- Claim C1 (code_bug evidence): the source updates the running power
term by squaring it (variable *= variable), so on the cubic polynomial
X^3 at x = 2 it returns 16 = 2^4 instead of the mathematical value
8 = 2^3. -/
theorem evalaute_squares_bug :
    Polynomial.evalaute { coefficients := [0, 0, 0, 1] } 2 = some 16 ∧
    mathEval [0, 0, 0, 1] 2 = 8 ∧ (16 : Fr) ≠ 8 := by
  refine ⟨rfl, by decide, by decide⟩

/-- Claim C2 (code_bug evidence): setup_internal checks bytes_tau > order
rather than bytes_tau >= order, so the 32-byte secret equal to the group
order itself is accepted (setup succeeds) although the secret is not
strictly less than the order. -/
theorem setup_internal_accepts_group_order :
    bytesToNatBE rBytes = r ∧ rBytes.length = 32 ∧ ¬ bytesToNatBE rBytes < r ∧
    ∃ kzg, setup_internal FrCurve rBytes 0 = Except.ok kzg := by
  refine ⟨by decide, by decide, by decide, ⟨_, rfl⟩⟩

/-- Claim C3: Opening::verify returns exactly the value of the
pairing-check primitive applied to (commitment.element - value * g1gen,
g2gen, proof, pp.point_in_g2 - input * g2gen); in particular it returns
true iff that pairing check holds, with no other validation. -/
theorem verify_is_pairing_check (C : Curve) (o : Opening C) (input : Fr) (cmt : Commitment C) :
    verify C o input cmt
      = C.pairingCheck (C.g1add cmt.element (C.g1neg (C.g1smul o.value C.g1gen)))
          C.g2gen o.proof
          (C.g2add cmt.public_parameter.point_in_g2 (C.g2neg (C.g2smul input C.g2gen))) ∧
    (verify C o input cmt = true ↔
      C.pairingCheck (C.g1add cmt.element (C.g1neg (C.g1smul o.value C.g1gen)))
          C.g2gen o.proof
          (C.g2add cmt.public_parameter.point_in_g2 (C.g2neg (C.g2smul input C.g2gen))) = true) :=
  ⟨rfl, Iff.rfl⟩

/-- Claim C9 (code_bug evidence): evaluating the empty polynomial panics
(out-of-bounds index on coefficients[0], modelled as none); it does not
produce a structured error value, and the repository's error enumeration
KZGErrors has no empty-polynomial variant (its sole variant concerns the
setup secret). -/
theorem evalaute_empty_is_panic_not_structured_error :
    Polynomial.evalaute { coefficients := [] } 0 = none ∧
    ∀ e : KZGErrors, e = KZGErrors.SecretMustBeLessThanTheOrderOfTheGroup := by
  refine ⟨rfl, fun e => by cases e; rfl⟩

/-- Claim C10: commit is infallible: it returns Except.ok for every public
parameter and every polynomial (empty or longer than the basis), and the
commitment to the empty polynomial is the default (identity) G1 element. -/
theorem commit_infallible (C : Curve) (pp : PP C) (p : Polynomial) :
    commit C pp p = Except.ok { element := commitElement C pp p,
                                polynomial := p, public_parameter := pp } ∧
    commitElement C pp { coefficients := [] } = C.g1zero :=
  ⟨rfl, rfl⟩

/-- Claim C8: when the non-empty dividend has degree (length - 1) strictly
below the non-empty divisor's degree, the signed degree difference is
negative, the division loop never runs, and compute_quotient returns the
empty (zero) polynomial. -/
theorem compute_quotient_low_degree (d v : List Fr) (hd : d ≠ []) (hv : v ≠ [])
    (h : d.length - 1 < v.length - 1) :
    compute_quotient { coefficients := d } { coefficients := v } = { coefficients := [] } := by
  have hneg : ((d.length - 1 : ℕ) : ℤ) - ((v.length - 1 : ℕ) : ℤ) < 0 := by
    omega
  simp only [compute_quotient, if_pos hneg]

theorem fr_div_one (x : Fr) : x / 1 = x := by
  show x * (1 : Fr)⁻¹ = x
  have h := ZMod.mul_inv_eq_gcd (1 : Fr)
  rw [one_mul] at h
  rw [h, ZMod.val_one, Nat.gcd_one_left, Nat.cast_one, mul_one]

theorem getD_append_add {α : Type} (Q L : List α) (k : ℕ) (d : α) :
    (Q ++ L).getD (Q.length + k) d = L.getD k d := by
  induction Q with
  | nil => simp
  | cons a Q ih =>
    have hidx : (a :: Q).length + k = Q.length + k + 1 := by
      simp only [List.length_cons]
      omega
    rw [List.cons_append, hidx, List.getD_cons_succ, ih]

theorem set_append_add {α : Type} (Q L : List α) (k : ℕ) (v : α) :
    (Q ++ L).set (Q.length + k) v = Q ++ L.set k v := by
  induction Q with
  | nil => simp
  | cons a Q ih =>
    have hidx : (a :: Q).length + k = Q.length + k + 1 := by
      simp only [List.length_cons]
      omega
    rw [List.cons_append, hidx, List.set_cons_succ, ih, List.cons_append]

theorem mathEval_nil (z : Fr) : mathEval [] z = 0 := rfl

theorem mathEval_cons (a : Fr) (t : List Fr) (z : Fr) :
    mathEval (a :: t) z = a + z * mathEval t z := rfl

theorem mathEval_eq_sum (z : Fr) : ∀ c : List Fr,
    mathEval c z = ∑ i in Finset.range c.length, c.getD i 0 * z ^ i := by
  intro c
  induction c with
  | nil => simp [mathEval_nil]
  | cons a t ih =>
    rw [mathEval_cons, ih, List.length_cons, Finset.sum_range_succ']
    simp only [List.getD_cons_succ, List.getD_cons_zero, pow_zero, mul_one, pow_succ,
               ← mul_assoc]
    rw [← Finset.sum_mul]
    ring

theorem mathEval_merge (z p q : Fr) : ∀ Q : List Fr,
    mathEval (Q ++ [p, q]) z = mathEval (Q ++ [p + z * q]) z := by
  intro Q
  induction Q with
  | nil =>
    simp only [List.nil_append, mathEval_cons, mathEval_nil]
    ring
  | cons a Q ih =>
    simp only [List.cons_append, mathEval_cons, ih]

theorem synthQuotient_cons (c : Fr) (l : List Fr) (z : Fr) (h : l ≠ []) :
    synthQuotient (c :: l) z = mathEval l z :: synthQuotient l z := by
  cases l with
  | nil => exact absurd rfl h
  | cons b t => rfl

theorem synthQuotient_merge (z p q : Fr) : ∀ Q : List Fr,
    synthQuotient (Q ++ [p, q]) z = synthQuotient (Q ++ [p + z * q]) z ++ [q] := by
  intro Q
  induction Q with
  | nil =>
    show synthQuotient [p, q] z = synthQuotient [p + z * q] z ++ [q]
    simp [synthQuotient, mathEval_cons, mathEval_nil]
  | cons a Q ih =>
    have h1 : Q ++ [p, q] ≠ [] := by simp
    have h2 : Q ++ [p + z * q] ≠ [] := by simp
    rw [List.cons_append, synthQuotient_cons a _ z h1, List.cons_append,
        synthQuotient_cons a _ z h2, mathEval_merge z p q Q, ih]
    rfl

theorem quotLoop_succ_step (z : Fr) (m : ℕ) (Q : List Fr) (p q : Fr) (rest acc : List Fr)
    (hQ : Q.length = m + 1) :
    quotLoop [-z, 1] 1 (m + 1) (Q ++ (p :: q :: rest)) acc
      = quotLoop [-z, 1] 1 m ((Q ++ [p + z * q]) ++ ((0 : Fr) :: rest)) (acc ++ [q]) := by
  have hidx2 : m + 1 + 1 = Q.length + 1 := by omega
  have hidx1 : m + 1 + 0 = Q.length + 0 := by omega
  have hrange : (List.range (1 + 1)).reverse = [1, 0] := by decide
  have hdc1 : ([-z, 1] : List Fr).getD 1 0 = 1 := rfl
  have hdc0 : ([-z, 1] : List Fr).getD 0 0 = -z := rfl
  simp only [quotLoop, hrange, subtractScaled]
  rw [hidx2, hidx1]
  simp only [getD_append_add, set_append_add, List.getD_cons_succ, List.getD_cons_zero,
             List.set_cons_succ, List.set_cons_zero, hdc1, hdc0, fr_div_one,
             one_mul, sub_self, neg_mul, sub_neg_eq_add,
             List.append_assoc, List.singleton_append]

theorem quotLoop_eq (z : Fr) :
    ∀ (m : ℕ) (P rest acc : List Fr), P.length = m + 2 →
      (quotLoop [-z, 1] 1 m (P ++ rest) acc).2 = acc ++ (synthQuotient P z).reverse := by
  intro m
  induction m with
  | zero =>
    intro P rest acc hP
    have hP2 : P.length = 2 := by omega
    obtain ⟨p, q, rfl⟩ := List.length_eq_two.mp hP2
    have hdc1 : ([-z, 1] : List Fr).getD 1 0 = 1 := rfl
    simp only [quotLoop, List.cons_append, List.getD_cons_succ, List.getD_cons_zero, hdc1,
               fr_div_one]
    simp [synthQuotient, mathEval_cons, mathEval_nil]
  | succ m ih =>
    intro P rest acc hP
    rcases hrev : P.reverse with _ | ⟨q, t1⟩
    · exfalso
      have hl := congrArg List.length hrev
      simp only [List.length_reverse, List.length_nil] at hl
      omega
    rcases t1 with _ | ⟨p, t⟩
    · exfalso
      have hl := congrArg List.length hrev
      simp only [List.length_reverse, List.length_cons, List.length_nil] at hl
      omega
    have hP2 : P = t.reverse ++ [p, q] := by
      have h := congrArg List.reverse hrev
      rw [List.reverse_reverse] at h
      rw [h]
      simp
    subst hP2
    have hQ : t.reverse.length = m + 1 := by
      simp only [List.length_append, List.length_reverse, List.length_cons,
                 List.length_nil] at hP
      simp only [List.length_reverse]
      omega
    have hlen2 : (t.reverse ++ [p + z * q]).length = m + 2 := by
      simp only [List.length_append, List.length_reverse, List.length_cons, List.length_nil]
      simp only [List.length_reverse] at hQ
      omega
    have hsh : (t.reverse ++ [p, q]) ++ rest = t.reverse ++ (p :: q :: rest) := by simp
    rw [hsh, quotLoop_succ_step z m t.reverse p q rest acc hQ,
        ih (t.reverse ++ [p + z * q]) ((0 : Fr) :: rest) (acc ++ [q]) hlen2,
        synthQuotient_merge z p q t.reverse]
    simp [List.reverse_append]

theorem compute_quotient_synth (c : List Fr) (z : Fr) (h : c ≠ []) :
    compute_quotient { coefficients := c } { coefficients := [-z, 1] }
      = { coefficients := synthQuotient c z } := by
  cases c with
  | nil => exact absurd rfl h
  | cons a t =>
    cases t with
    | nil =>
      norm_num [compute_quotient, synthQuotient]
    | cons b t2 =>
      simp only [compute_quotient]
      have hd1 : ((a :: b :: t2).length - 1 : ℕ) = t2.length + 1 := by simp
      have hd2 : (([-z, 1] : List Fr).length - 1 : ℕ) = 1 := rfl
      rw [hd1, hd2]
      have hneg : ¬ (((t2.length + 1 : ℕ) : ℤ) - ((1 : ℕ) : ℤ) < 0) := by
        push_cast
        omega
      rw [if_neg hneg]
      have htn : ((((t2.length + 1 : ℕ) : ℤ)) - ((1 : ℕ) : ℤ)).toNat = t2.length := by
        push_cast
        omega
      rw [htn]
      have hq := quotLoop_eq z t2.length (a :: b :: t2) [] [] (by simp)
      rw [List.append_nil] at hq
      rw [hq]
      simp

theorem addPoly_getD (xs : List Fr) : ∀ (ys : List Fr) (k : ℕ),
    (addPoly xs ys).getD k 0 = xs.getD k 0 + ys.getD k 0 := by
  induction xs with
  | nil =>
    intro ys k
    simp [addPoly]
  | cons x xs ih =>
    intro ys k
    cases ys with
    | nil => simp [addPoly]
    | cons y ys =>
      cases k with
      | zero => simp [addPoly]
      | succ k =>
        simp only [addPoly, List.getD_cons_succ]
        exact ih ys k

theorem synthQuotient_roundTrip (z : Fr) : ∀ (c : List Fr) (k : ℕ),
    (polyMul (synthQuotient c z) [-z, 1]).getD k 0
      + (if k = 0 then mathEval c z else 0) = c.getD k 0 := by
  intro c
  induction c with
  | nil =>
    intro k
    cases k with
    | zero => simp [synthQuotient, polyMul, mathEval_nil]
    | succ k => simp [synthQuotient, polyMul]
  | cons c0 t ih =>
    intro k
    cases t with
    | nil =>
      cases k with
      | zero => simp [synthQuotient, polyMul, mathEval_cons, mathEval_nil]
      | succ k => simp [synthQuotient, polyMul]
    | cons c1 t2 =>
      have hsq : synthQuotient (c0 :: c1 :: t2) z
          = mathEval (c1 :: t2) z :: synthQuotient (c1 :: t2) z := rfl
      cases k with
      | zero =>
        rw [hsq]
        simp only [polyMul, List.map_cons, List.map_nil, addPoly_getD, List.getD_cons_zero]
        simp only [if_true]
        have hme : mathEval (c0 :: c1 :: t2) z = c0 + z * mathEval (c1 :: t2) z := rfl
        rw [hme]
        ring
      | succ k =>
        rw [hsq]
        have h2 : ([mathEval (c1 :: t2) z * 1] : List Fr).getD k 0
            = (if k = 0 then mathEval (c1 :: t2) z else 0) := by
          cases k with
          | zero => simp
          | succ k2 => simp
        simp only [polyMul, List.map_cons, List.map_nil, addPoly_getD, List.getD_cons_succ, h2]
        rw [if_neg (Nat.succ_ne_zero k)]
        linear_combination ih k

/-- Claim C6: for every non-empty polynomial f and every scalar z, with q
the quotient returned by compute_quotient(f, [-z, 1]) and f(z) the
mathematical value of f at z, the polynomial q * (X - z) + f(z) equals f
coefficient-wise. -/
theorem compute_quotient_roundtrip (c : List Fr) (z : Fr) (h : c ≠ []) (k : ℕ) :
    (polyMul (compute_quotient { coefficients := c }
        { coefficients := [-z, 1] }).coefficients [-z, 1]).getD k 0
      + (if k = 0 then mathEval c z else 0) = c.getD k 0 := by
  rw [compute_quotient_synth c z h]
  exact synthQuotient_roundTrip z c k

theorem compute_quotient_roundtrip_witness :
    (([1, 2, 3] : List Fr) ≠ []) ∧
    ((polyMul (compute_quotient { coefficients := ([1, 2, 3] : List Fr) }
          { coefficients := [-(2 : Fr), 1] }).coefficients [-(2 : Fr), 1]).getD 0 0
      + (if (0 : ℕ) = 0 then mathEval [1, 2, 3] 2 else 0) = ([1, 2, 3] : List Fr).getD 0 0) :=
  ⟨by decide, compute_quotient_roundtrip [1, 2, 3] 2 (by decide) 0⟩

theorem compute_quotient_low_degree_witness :
    (([1] : List Fr) ≠ []) ∧ (([2, 3] : List Fr) ≠ []) ∧
    (([1] : List Fr).length - 1 < ([2, 3] : List Fr).length - 1) ∧
    compute_quotient { coefficients := ([1] : List Fr) }
      { coefficients := ([2, 3] : List Fr) } = { coefficients := [] } :=
  ⟨by decide, by decide, by decide,
    compute_quotient_low_degree [1] [2, 3] (by decide) (by decide) (by decide)⟩

theorem getD_range_map {α : Type} (f : ℕ → α) (d : α) (n i : ℕ) (h : i < n) :
    ((List.range n).map f).getD i d = f i := by
  rw [List.getD_eq_getElem?_getD, List.getElem?_map, List.getElem?_range h]
  rfl

theorem zip_foldl_range {β γ δ : Type} (f : δ → β → γ → δ) (a0 : β) (b0 : γ) :
    ∀ (xs : List β) (ys : List γ) (init : δ),
      (xs.zip ys).foldl (fun acc pr => f acc pr.1 pr.2) init
        = (List.range (min xs.length ys.length)).foldl
            (fun acc i => f acc (xs.getD i a0) (ys.getD i b0)) init := by
  intro xs
  induction xs with
  | nil =>
    intro ys init
    simp
  | cons x xs ih =>
    intro ys init
    cases ys with
    | nil => simp
    | cons y ys =>
      simp only [List.zip_cons_cons, List.foldl_cons, List.length_cons]
      rw [Nat.succ_min_succ, List.range_succ_eq_map]
      simp only [List.foldl_cons, List.foldl_map, List.getD_cons_zero, Nat.succ_eq_add_one,
                 List.getD_cons_succ]
      exact ih ys (f init x y)

/-- Claim C5: commit never fails and its element is the indexed sum of
coefficient_i * points_in_g1[i] over i below the minimum of the two
lengths; excess coefficients beyond the basis are silently ignored by the
zip (shortest-sequence) pairing. -/
theorem commit_element_indexed (C : Curve) (pp : PP C) (p : Polynomial) :
    commit C pp p = Except.ok { element := commitElement C pp p,
                                polynomial := p, public_parameter := pp } ∧
    commitElement C pp p
      = (List.range (min p.coefficients.length pp.points_in_g1.length)).foldl
          (fun acc i => C.g1add acc (C.g1smul (p.coefficients.getD i 0)
            (pp.points_in_g1.getD i C.g1zero))) C.g1zero :=
  ⟨rfl, zip_foldl_range (fun acc c g => C.g1add acc (C.g1smul c g)) 0 C.g1zero
    p.coefficients pp.points_in_g1 C.g1zero⟩

/-- Claim C4: open_at evaluates the polynomial at the point (with the
code's evalaute), divides the polynomial directly by the divisor
[-point, 1], commits to the quotient under the commitment's own public
parameter, and returns Opening(value, proof = that commitment element). -/
theorem open_at_spec (C : Curve) (cmt : Commitment C) (z v : Fr)
    (h : cmt.polynomial.evalaute z = some v) :
    open_at C cmt z = some (Except.ok
      { value := v,
        proof := commitElement C cmt.public_parameter
          (compute_quotient cmt.polynomial { coefficients := [-z, 1] }) }) := by
  unfold open_at
  rw [h]
  rfl

theorem open_at_spec_witness :
    (({ coefficients := [3, 5] } : Polynomial).evalaute 2 = some 13) ∧
    open_at FrCurve
        { element := 0, polynomial := { coefficients := [3, 5] },
          public_parameter := { points_in_g1 := [1, 1], point_in_g2 := 1 } } 2
      = some (Except.ok
        { value := 13,
          proof := commitElement FrCurve { points_in_g1 := [1, 1], point_in_g2 := 1 }
            (compute_quotient { coefficients := [3, 5] }
              { coefficients := [-(2 : Fr), 1] }) }) :=
  ⟨by decide, open_at_spec FrCurve _ 2 13 (by decide)⟩

theorem natCast_fr_ne (a b : ℕ) (ha : a < r) (hb : b < r) (hne : a ≠ b) :
    ((a : ℕ) : Fr) ≠ ((b : ℕ) : Fr) := by
  intro h
  have hv := congrArg ZMod.val h
  rw [ZMod.val_natCast, ZMod.val_natCast, Nat.mod_eq_of_lt ha, Nat.mod_eq_of_lt hb] at hv
  exact hne hv

/-- Claim C7 (amended): for every 32-byte tau strictly below the group
order and every degree, setup succeeds, produces degree + 1 points in G1,
the i-th point is tau^(i mod 2^32) mod order times the G1 generator (the
source converts the index i to u32, so the exponent wraps at 2^32; below
degree 2^32 this is exactly tau^i), and the single G2 point is tau times
the G2 generator. -/
theorem setup_internal_spec (C : Curve) (tau : List ℕ) (degree : ℕ)
    (h32 : tau.length = 32) (hlt : bytesToNatBE tau < r) :
    ∃ kzg : KZG C, setup_internal C tau degree = Except.ok kzg ∧
      kzg.public_parameter.points_in_g1.length = degree + 1 ∧
      (∀ i, i ≤ degree →
        kzg.public_parameter.points_in_g1.getD i C.g1zero
          = C.g1smul ((bytesToNatBE tau ^ (i % 2 ^ 32) % r : ℕ) : Fr) C.g1gen) ∧
      kzg.public_parameter.point_in_g2 = C.g2smul ((bytesToNatBE tau : ℕ) : Fr) C.g2gen := by
  refine ⟨{ public_parameter :=
    { points_in_g1 := (List.range (degree + 1)).map
        (fun i => C.g1smul ((bytesToNatBE tau ^ (i % 2 ^ 32) % r : ℕ) : Fr) C.g1gen),
      point_in_g2 := C.g2smul ((bytesToNatBE tau : ℕ) : Fr) C.g2gen } }, ?_, ?_, ?_, ?_⟩
  · unfold setup_internal
    rw [if_neg (by omega)]
  · simp
  · intro i hi
    exact getD_range_map _ _ _ _ (by omega)
  · rfl

theorem setup_internal_spec_witness :
    tauTwo.length = 32 ∧ bytesToNatBE tauTwo < r ∧
    (∃ kzg : KZG FrCurve, setup_internal FrCurve tauTwo 1 = Except.ok kzg ∧
      kzg.public_parameter.points_in_g1.length = 1 + 1 ∧
      (∀ i, i ≤ 1 →
        kzg.public_parameter.points_in_g1.getD i FrCurve.g1zero
          = FrCurve.g1smul ((bytesToNatBE tauTwo ^ (i % 2 ^ 32) % r : ℕ) : Fr) FrCurve.g1gen) ∧
      kzg.public_parameter.point_in_g2
        = FrCurve.g2smul ((bytesToNatBE tauTwo : ℕ) : Fr) FrCurve.g2gen) :=
  ⟨by decide, by decide, setup_internal_spec FrCurve tauTwo 1 (by decide) (by decide)⟩

/-- Claim C7 counterexample: with the 32-byte secret of value 2 and
degree 2^32 (all premises of the claim hold), the point at index 2^32 is
built from exponent 2^32 mod 2^32 = 0, so it differs from the claimed
value tau^(2^32) mod order times the G1 generator: the i-as-u32
conversion in the setup loop wraps. -/
theorem setup_internal_u32_wrap :
    bytesToNatBE tauTwo < r ∧ tauTwo.length = 32 ∧
    ∃ kzg : KZG FrCurve, setup_internal FrCurve tauTwo (2 ^ 32) = Except.ok kzg ∧
      kzg.public_parameter.points_in_g1.getD (2 ^ 32) FrCurve.g1zero
        ≠ FrCurve.g1smul ((bytesToNatBE tauTwo ^ 2 ^ 32 % r : ℕ) : Fr) FrCurve.g1gen := by
  refine ⟨by decide, by decide, ⟨_, rfl, ?_⟩⟩
  rw [getD_range_map _ _ _ _ (Nat.lt_succ_self _)]
  have hb : bytesToNatBE tauTwo = 2 := by decide
  rw [hb]
  have hm : (2 : ℕ) ^ 32 % 2 ^ 32 = 0 := Nat.mod_self _
  rw [hm]
  have h1 : (2 : ℕ) ^ 0 % r = 1 := by decide
  rw [h1]
  have hne : (1 : ℕ) ≠ 2 ^ 2 ^ 32 % r := by
    have hs : sqmodIter r 32 (2 % r) = 2 ^ 2 ^ 32 % r := sqmodIter_spec r 32 2
    rw [← hs]
    decide
  have hblt : 2 ^ 2 ^ 32 % r < r := Nat.mod_lt _ (by decide)
  show ((1 : ℕ) : Fr) * 1 ≠ ((2 ^ 2 ^ 32 % r : ℕ) : Fr) * 1
  rw [mul_one, mul_one]
  exact natCast_fr_ne 1 (2 ^ 2 ^ 32 % r) (by decide) hblt hne

end Impl
